import Mathlib

/-
Verification development for the marshal-magic source analyzer.

The analyzer (src/exec_analyzer/source_analyzer.py, src/exec_analyzer/global_visitor.py,
src/safe_analyzer/__init__.py) statically analyzes Python source files: it rebuilds a
global symbol table from top-level statements, materializes deferred function/class
definitions by re-executing them, locates dynamic-execution (exec) and
bytecode-deserialization (marshal.loads) call sites, and resolves their arguments
against the reconstructed environment.

This file is a shallow embedding of that analyzer.  Python's host facilities that the
analyzer calls out to (module importing, `eval` of raw source text) are modelled as
oracles (`Host`, and an eval oracle for the safe analyzer); everything the analyzer
itself does is translated structurally from the source.  Machine-level Python
semantics are idealized as follows: source text is represented by its syntax tree
(exec_analyzer) or by its newline-split lines (safe_analyzer, whose slicing logic is
textual); `eval` of the exact source segment of a node is modelled as evaluation of
that node; Python dicts are association lists with in-place update; `is` identity on
module objects is modelled by value equality of module handles (Python modules are
per-process singletons).
-/

namespace MM

/-- Python exception kinds that the analyzer's control flow distinguishes.
`moduleNotFound` is the one exception class the import visitors catch;
everything else is caught only by the blanket per-site handlers. -/
inductive PyErr where
  | moduleNotFound
  | importError
  | nameError
  | typeError
  | attrError
  | indexError
  | evalError
  | inputDisabled
  | unsupported
deriving DecidableEq, Repr

/-- Expressions, mirroring the ast node shapes the analyzer inspects:
constants, names, lambdas, calls (with func being any expression) and
attribute access. -/
inductive Expr where
  | constI (n : Int)
  | constS (s : String)
  | constB (bs : List Nat)
  | name (id : String)
  | lam
  | call (f : Expr) (args : List Expr)
  | attr (recv : Expr) (attrName : String)

/-- Top-level statements, mirroring the ast node kinds GlobalVisitor handles.
`assign` is the single-Name-target form; `assignOther` stands for assignment
shapes the `len(node.targets) == 1 and isinstance(..., ast.Name)` guard rejects.
Import aliases are (module-or-name, optional asname) pairs. -/
inductive Stmt where
  | assign (target : String) (value : Expr)
  | assignOther
  | funcDef (name : String) (decorators : List String)
  | classDef (name : String) (bases : List String)
  | importStmt (names : List (String × Option String))
  | importFrom (moduleName : String) (names : List (String × Option String))
  | exprStmt (e : Expr)
  | other

/-- Runtime values: literals, module handles (identified by module name, since
Python modules are per-process singletons), raw captured definition nodes
(GlobalVisitor binds FunctionDef/ClassDef names to the ast node itself),
materialized definitions (tagged by analysis-session id and name, since
re-executing a definition yields a fresh object), the identity lambda that
try_to_get_exec_restults installs, the marshal.loads bound method, opaque
builtins, lambdas, and code objects produced by marshal.loads. -/
inductive Value where
  | intV (n : Int)
  | strV (s : String)
  | bytesV (bs : List Nat)
  | noneV
  | moduleHandle (modName : String)
  | astStmt (s : Stmt)
  | matV (sid : Nat) (name : String)
  | identityFn
  | marshalLoads
  | builtinB (name : String)
  | lambdaV
  | codeV (bs : List Nat)

/-- Python `is` identity, as far as the analyzer exercises it (the
`self.globals.get(...) is marshal` receiver check).  Module objects are
per-process singletons, so handles with the same module name are the same
object; a materialized definition is the same object only within the same
session under the same name; distinct ast nodes, lambdas, or literals are
never the object the analyzer's module frame names, so those comparisons
are conservatively false. -/
def pyIs : Value → Value → Bool
  | .moduleHandle a, .moduleHandle b => a == b
  | .matV s a, .matV t b => s == t && a == b
  | .identityFn, .identityFn => true
  | .marshalLoads, .marshalLoads => true
  | .builtinB a, .builtinB b => a == b
  | _, _ => false

/-- Association lists standing for Python dicts: lookup returns the first match. -/
def lookupA {α : Type} : List (String × α) → String → Option α
  | [], _ => none
  | (k', v') :: rest, k => if k' = k then some v' else lookupA rest k

/-- Dict update: overwrite in place if the key exists (preserving its position,
as Python dicts do), else append at the end (insertion order). -/
def insertA {α : Type} : List (String × α) → String → α → List (String × α)
  | [], k, v => [(k, v)]
  | (k', v') :: rest, k, v =>
      if k' = k then (k, v) :: rest else (k', v') :: insertA rest k v

/-- Dict `pop`: remove the entry with the given key. -/
def eraseA {α : Type} : List (String × α) → String → List (String × α)
  | [], _ => []
  | (k', v') :: rest, k =>
      if k' = k then eraseA rest k else (k', v') :: eraseA rest k

abbrev Env := List (String × Value)

/-- The Python builtins the modelled flows can reach: `input` (guarded/blocked
during analysis), `exec` (the real builtin, reachable only when the analyzer's
identity rebinding is absent) and `staticmethod` (a decorator that resolves from
builtins during materialization).  All other names are absent. -/
def builtinsLookup : String → Option Value
  | "input" => some (.builtinB "input")
  | "exec" => some (.builtinB "exec")
  | "staticmethod" => some (.builtinB "staticmethod")
  | _ => none

/-- Outcome of `__import__(name, ...)` on the host: the module object, a
ModuleNotFoundError, or any other exception raised while locating or
initializing the module. -/
inductive ImportOutcome where
  | ok (v : Value)
  | notFound
  | raised (e : PyErr)

/-- Outcome of executing a compiled `from module import names` statement on the
host: the names it binds, a ModuleNotFoundError, or any other exception
(e.g. ImportError when the module exists but lacks one of the names). -/
inductive FromOutcome where
  | ok (binds : List (String × Value))
  | notFound
  | raised (e : PyErr)

/-- The host interpreter facilities the analyzer calls out to. -/
structure Host where
  importMod : String → ImportOutcome
  fromImport : String → List (String × Option String) → FromOutcome

/-- Attribute access on a value.  The only attribute the modelled flows read is
`marshal.loads`; other lookups raise AttributeError. -/
def getAttr : Value → String → Except PyErr Value
  | .moduleHandle "marshal", "loads" => .ok .marshalLoads
  | _, _ => .error .attrError

/-- Calling a value.  The identity lambda installed by try_to_get_exec_restults
returns its first positional argument; `marshal.loads` turns a bytes value into
a code object; `input` fails (the analysis either disables stdin or does not
model interactive reads); other values are not callable in the modelled flows. -/
def applyVal : Value → List Value → Except PyErr Value
  | .identityFn, v :: _ => .ok v
  | .identityFn, [] => .error .typeError
  | .marshalLoads, [.bytesV bs] => .ok (.codeV bs)
  | .marshalLoads, _ => .error .typeError
  | .builtinB "input", _ => .error .inputDisabled
  | _, _ => .error .typeError

/-- Name resolution for evaluated expressions: the locals/globals dict the
analyzer passes to eval (always the reconstructed environment), then builtins. -/
def lookupName (env : Env) (x : String) : Except PyErr Value :=
  match lookupA env x with
  | some v => .ok v
  | none =>
      match builtinsLookup x with
      | some v => .ok v
      | none => .error .nameError

mutual
/-- Evaluation of an expression's exact source segment against an environment
(`eval(segment, ..., env)`), modelled as evaluation of the node itself.
Function position is evaluated before arguments, left to right, as in Python. -/
def evalExpr (env : Env) : Expr → Except PyErr Value
  | .constI n => .ok (.intV n)
  | .constS s => .ok (.strV s)
  | .constB bs => .ok (.bytesV bs)
  | .name x => lookupName env x
  | .lam => .ok .lambdaV
  | .call f args =>
      match evalExpr env f with
      | .error e => .error e
      | .ok fv =>
          match evalArgs env args with
          | .error e => .error e
          | .ok avs => applyVal fv avs
  | .attr r a =>
      match evalExpr env r with
      | .error e => .error e
      | .ok rv => getAttr rv a

def evalArgs (env : Env) : List Expr → Except PyErr (List Value)
  | [] => .ok []
  | e :: es =>
      match evalExpr env e with
      | .error err => .error err
      | .ok v =>
          match evalArgs env es with
          | .error err => .error err
          | .ok vs => .ok (v :: vs)
end

/-- The scoped external resource the visitor manipulates: `sys.stdin`.
`none` is the disabled sentinel (`sys.stdin = None`); `some h` an actual
stream handle. -/
structure Sys where
  stdin : Option Nat
deriving DecidableEq, Repr

/-- GlobalVisitor state: `global_vars` (the symbol table) and `defs`
(captured function/class definition nodes). -/
structure VisState where
  gvars : Env
  defs : List (String × Stmt)

/-- GlobalVisitor.visit_Assign.  Only single-Name-target assignments are
considered.  The input-guard fires first (a bare `except` covers value shapes
without a `.func.id`).  Constants are bound directly; Call and Lambda values
are selectively evaluated (`add_a_function_value`, i.e. eval of the value's
source segment with `global_vars` as both globals and locals); any evaluation
failure is caught and the name left unbound. -/
def visit_Assign (vs : VisState) (target : String) (value : Expr) : VisState :=
  match value with
  | .call (.name "input") _ => vs
  | .constI n => { vs with gvars := insertA vs.gvars target (.intV n) }
  | .constS s => { vs with gvars := insertA vs.gvars target (.strV s) }
  | .constB bs => { vs with gvars := insertA vs.gvars target (.bytesV bs) }
  | .call f args =>
      match evalExpr vs.gvars (.call f args) with
      | .ok v => { vs with gvars := insertA vs.gvars target v }
      | .error _ => vs
  | .lam =>
      match evalExpr vs.gvars .lam with
      | .ok v => { vs with gvars := insertA vs.gvars target v }
      | .error _ => vs
  | _ => vs

/-- GlobalVisitor.visit_Import: each alias is imported under its own
try/except that catches only ModuleNotFoundError; any other exception
propagates, abandoning the remaining aliases but keeping earlier bindings. -/
def visit_Import (h : Host) (vs : VisState) :
    List (String × Option String) → VisState × Except PyErr Unit
  | [] => (vs, .ok ())
  | (modName, asname) :: rest =>
      match h.importMod modName with
      | .ok v =>
          visit_Import h
            { vs with gvars := insertA vs.gvars (asname.getD modName) v } rest
      | .notFound => visit_Import h vs rest
      | .raised e => (vs, .error e)

/-- GlobalVisitor.visit_ImportFrom: the single statement is compiled and
executed with `global_vars` as locals, merging the names it binds; only
ModuleNotFoundError is caught, everything else propagates. -/
def visit_ImportFrom (h : Host) (vs : VisState) (modName : String)
    (names : List (String × Option String)) : VisState × Except PyErr Unit :=
  match h.fromImport modName names with
  | .ok binds =>
      ({ vs with gvars := binds.foldl (fun g p => insertA g p.1 p.2) vs.gvars }, .ok ())
  | .notFound => (vs, .ok ())
  | .raised e => (vs, .error e)

/-- Dispatch of one top-level statement, as ast.NodeVisitor does: FunctionDef
and ClassDef bind the raw node in both `global_vars` and `defs`; statements with
no registered visitor are ignored. -/
def visitStmt (h : Host) (vs : VisState) : Stmt → VisState × Except PyErr Unit
  | .assign t v => (visit_Assign vs t v, .ok ())
  | .funcDef n decs =>
      ({ gvars := insertA vs.gvars n (.astStmt (.funcDef n decs)),
         defs := insertA vs.defs n (.funcDef n decs) }, .ok ())
  | .classDef n bases =>
      ({ gvars := insertA vs.gvars n (.astStmt (.classDef n bases)),
         defs := insertA vs.defs n (.classDef n bases) }, .ok ())
  | .importStmt names => visit_Import h vs names
  | .importFrom m names => visit_ImportFrom h vs m names
  | _ => (vs, .ok ())

/-- Traversal of the module body statement by statement; an uncaught exception
in one statement's visitor aborts the traversal, keeping state already built. -/
def visitBody (h : Host) (vs : VisState) : List Stmt → VisState × Except PyErr Unit
  | [] => (vs, .ok ())
  | st :: rest =>
      match visitStmt h vs st with
      | (vs', .ok _) => visitBody h vs' rest
      | (vs', .error e) => (vs', .error e)

/-- GlobalVisitor.visit: saves sys.stdin, replaces it with the disabled
sentinel, runs the traversal, and assigns the saved handle back afterwards.
There is no try/finally: the restoring assignment is only reached when the
traversal returns normally. -/
def gvVisit (h : Host) (sys : Sys) (vs : VisState) (tree : List Stmt) :
    Sys × VisState × Except PyErr Unit :=
  let saved := sys.stdin
  let sys1 : Sys := { stdin := none }
  match visitBody h vs tree with
  | (vs', .ok _) => ({ stdin := saved }, vs', .ok ())
  | (vs', .error e) => (sys1, vs', .error e)

/-- State of one SourceAnalyzer instance after construction.  `computed`
records whether the `globals` property has already stored its result; the
memo check in the source is the truthiness of `self.__globals`, so an empty
environment is recomputed even when `computed` is true. -/
structure Session where
  tree : List Stmt
  gvars : Env
  defs : List (String × Stmt)
  computed : Bool
  sid : Nat

/-- Name resolution inside `exec(compile(ast.Module([body]), "defs", "exec"), {}, globals())`:
the exec's locals is the analyzer module's own global namespace (the `globals()`
call in source_analyzer.py), its globals dict is empty, and builtins are ambient.
Decorator and base-class names of the re-executed definition resolve there. -/
def resolvesName (ns : Env) (x : String) : Bool :=
  (lookupA ns x).isSome || (builtinsLookup x).isSome

/-- Re-execution of one captured definition node in the shared module
namespace.  A FunctionDef binds a fresh function object under the node's own
name once its decorators resolve; a ClassDef likewise once its bases resolve;
a failure (unresolved dependency) raises, yielding no binding.  The result is
the (name, object) pair the exec would bind. -/
def execDef (ns : Env) (sid : Nat) : Stmt → Option (String × Value)
  | .funcDef n decs =>
      if decs.all (resolvesName ns) then some (n, .matV sid n) else none
  | .classDef n bases =>
      if bases.all (resolvesName ns) then some (n, .matV sid n) else none
  | _ => none

/-- First loop of the `globals` property: exec each deferred definition into the
shared module namespace, recording failing dict keys in `deleted_defs_keies`. -/
def materializeLoop (ns : Env) (sid : Nat) :
    List (String × Stmt) → Env × List String
  | [] => (ns, [])
  | (k, body) :: rest =>
      match execDef ns sid body with
      | some p => materializeLoop (insertA ns p.1 p.2) sid rest
      | none =>
          let r := materializeLoop ns sid rest
          (r.1, k :: r.2)

/-- Second loop of the `globals` property: for every def key that was not
deleted, `global_vars[key] = eval(key)`, reading the value the exec pass wrote
into the shared module namespace.  (`eval(key)` cannot fail here: a key escapes
`deleted_defs_keies` only when its exec bound it, so the `getD` default is
unreachable.) -/
def adoptLoop (ns : Env) (deleted : List String) (g : Env) :
    List (String × Stmt) → Env
  | [] => g
  | (k, _) :: rest =>
      if k ∈ deleted then adoptLoop ns deleted g rest
      else adoptLoop ns deleted (insertA g k ((lookupA ns k).getD .noneV)) rest

/-- The SourceAnalyzer.globals property: return the memoized environment when
`self.__globals` is truthy (computed and non-empty), otherwise materialize the
deferred definitions and merge them into `visitor.global_vars`, which the memo
then aliases.  Returns (module namespace, session, merged environment). -/
def globals_prop (ns : Env) (s : Session) : Env × Session × Env :=
  if s.computed && !s.gvars.isEmpty then (ns, s, s.gvars)
  else
    let m := materializeLoop ns s.sid s.defs
    let g' := adoptLoop m.1 m.2 s.gvars s.defs
    (m.1, { s with gvars := g', computed := true }, g')

mutual
/-- All Call nodes reachable in an expression, the call itself included
(the Call subsequence of `ast.walk` restricted to one expression). -/
def subCalls : Expr → List Expr
  | .constI _ => []
  | .constS _ => []
  | .constB _ => []
  | .name _ => []
  | .lam => []
  | .call f args => .call f args :: (subCalls f ++ subCallsL args)
  | .attr r _ => subCalls r

def subCallsL : List Expr → List Expr
  | [] => []
  | e :: es => subCalls e ++ subCallsL es
end

/-- Expressions contained in one top-level statement, as presented by the
syntax tree. -/
def stmtExprs : Stmt → List Expr
  | .assign _ v => [v]
  | .exprStmt e => [e]
  | _ => []

/-- The Call nodes `ast.walk(self.tree)` yields (walk order abstracted; no
claim depends on BFS versus DFS ordering). -/
def walkCalls (tree : List Stmt) : List Expr :=
  tree.flatMap (fun st => subCallsL (stmtExprs st))

/-- The test one iteration of get_bytecodes applies to a walked node:
`isinstance(i, ast.Call) and isinstance(i.func, ast.Attribute) and
isinstance(i.func.value, ast.Name)` and then
`self.globals.get(i.func.value.id) is marshal and i.func.attr == "loads"`,
where `marshal` is the name as the analyzer module's own frame resolves it. -/
def isMarshalRecv (ns g : Env) (recv : String) : Bool :=
  match lookupA g recv, lookupA ns "marshal" with
  | some v, some m => pyIs v m
  | _, _ => false

/-- One iteration of the get_bytecodes loop on one walked call node: `none`
when the node is not a receiver-confirmed `.loads` call, when it has no
arguments (the IndexError on `i.args[0]` is caught), or when evaluating the
first argument's source segment against the merged environment fails (also
caught); otherwise the resolved payload. -/
def loadsSiteHead (ns g : Env) (c : Expr) : Option Value :=
  match c with
  | .call (.attr (.name recv) a0) args =>
      if isMarshalRecv ns g recv && (a0 == "loads") then
        match args with
        | [] => none
        | a :: _ => (evalExpr g a).toOption
      else none
  | _ => none

/-- The get_bytecodes walk loop: every site is tried under its own
try/except, failures only print. -/
def get_bytecodes_loop (ns g : Env) : List Expr → List Value
  | [] => []
  | c :: rest =>
      match loadsSiteHead ns g c with
      | some v => v :: get_bytecodes_loop ns g rest
      | none => get_bytecodes_loop ns g rest

/-- SourceAnalyzer.get_bytecodes: force the `globals` property, then collect
the resolved payload of every receiver-confirmed `marshal.loads` call. -/
def get_bytecodes (ns : Env) (s : Session) : List Value × Env × Session :=
  let r := globals_prop ns s
  (get_bytecodes_loop r.1 r.2.2 (walkCalls r.2.1.tree), r.1, r.2.1)

/-- One iteration of the try_to_get_exec_restults loop: the node must be a
direct call of the dynamic-execution name; its full source segment is then
evaluated against the merged environment (in which that name is rebound to the
identity lambda), each site under its own try/except. -/
def execSiteHead (env : Env) (id0 : String) (c : Expr) : Option Value :=
  match c with
  | .call (.name f) args =>
      if f == id0 then (evalExpr env (.call (.name f) args)).toOption else none
  | _ => none

/-- The try_to_get_exec_restults walk loop. -/
def try_loop (env : Env) (id0 : String) : List Expr → List Value
  | [] => []
  | c :: rest =>
      match execSiteHead env id0 c with
      | some v => v :: try_loop env id0 rest
      | none => try_loop env id0 rest

/-- SourceAnalyzer.try_to_get_exec_restults: force `globals`, install
`__globals[id] = lambda compiled, *args, **kwargs: compiled`, evaluate every
direct call of `id` in the tree against that environment (per-site failures
caught), then `__globals.pop(id)` — which removes the key outright, including
any binding the analyzed program itself had for it. -/
def try_to_get_exec_restults (ns : Env) (s : Session) (id0 : String) :
    List Value × Env × Session :=
  let r := globals_prop ns s
  let g1 := insertA r.2.2 id0 .identityFn
  let results := try_loop g1 id0 (walkCalls r.2.1.tree)
  let g2 := eraseA g1 id0
  (results, r.1, { r.2.1 with gvars := g2 })

/-- The three result collections the engine hands to its consumer (the shape
test.py's get_features observes: the globals mapping — the same dict object the
later stages mutate — the marshal payload list, and the exec result list). -/
structure PipeOut where
  globalsOut : Env
  bytecodes : List Value
  execResults : List Value

/-- The full pipeline on one parsed source file: construct the analyzer (which
runs GlobalVisitor over the tree), then read the `globals` property, then
get_bytecodes, then try_to_get_exec_restults.  `ns` is the analyzer module's
own global namespace, shared by every session in the process; `sid` identifies
the session.  An exception escaping the visitor escapes the constructor. -/
def runPipeline (h : Host) (ns : Env) (sys : Sys) (sid : Nat) (tree : List Stmt) :
    Except PyErr PipeOut × Env × Sys :=
  match gvVisit h sys { gvars := [], defs := [] } tree with
  | (sys1, _, .error e) => (.error e, ns, sys1)
  | (sys1, vs, .ok _) =>
      let s0 : Session :=
        { tree := tree, gvars := vs.gvars, defs := vs.defs, computed := false, sid := sid }
      let r1 := globals_prop ns s0
      let r2 := get_bytecodes r1.1 r1.2.1
      let r3 := try_to_get_exec_restults r2.2.1 r2.2.2 "exec"
      (.ok { globalsOut := r3.2.2.gvars, bytecodes := r2.1, execResults := r3.1 },
       r3.2.1, sys1)

/-- Whether an Except is a normal return. -/
def isOkE {ε α : Type} : Except ε α → Bool
  | .ok _ => true
  | .error _ => false

/-- The globals mapping of a pipeline outcome (empty when the pipeline raised). -/
def pipeGlobals (r : Except PyErr PipeOut) : Env :=
  match r with
  | .ok o => o.globalsOut
  | .error _ => []

/-- The bytecode list of a pipeline outcome (empty when the pipeline raised). -/
def bytecodesOf (r : Except PyErr PipeOut) : List Value :=
  match r with
  | .ok o => o.bytecodes
  | .error _ => []

/-- A statement's import operations all complete without raising anything
other than ModuleNotFoundError on this host. -/
def stmtImportsOk (h : Host) : Stmt → Bool
  | .importStmt names =>
      names.all (fun p =>
        match h.importMod p.1 with
        | .raised _ => false
        | _ => true)
  | .importFrom m names =>
      match h.fromImport m names with
      | .raised _ => false
      | _ => true
  | _ => true

/-- The names a captured definition node makes the materialization exec
resolve from the shared module namespace (decorators, base classes). -/
def stmtDeps : Stmt → List String
  | .funcDef _ decs => decs
  | .classDef _ bases => bases
  | _ => []

/-- The shared-module-namespace names one statement's analysis can read or
write: the definition's own name (written by materialization) and its
decorator/base names (read by materialization). -/
def stmtNsNames : Stmt → List String
  | .funcDef n decs => n :: decs
  | .classDef n bases => n :: bases
  | _ => []

/-- Every module-namespace name the analysis of this tree can read or write,
plus `marshal`, which get_bytecodes reads from the analyzer module's frame. -/
def progNsNames (tree : List Stmt) : List String :=
  "marshal" :: tree.flatMap stmtNsNames

/-- Two module namespaces agree on a set of names. -/
def agreeOn (S : List String) (ns1 ns2 : Env) : Prop :=
  ∀ x ∈ S, lookupA ns1 x = lookupA ns2 x

/-- Every def entry's dict key and every module-namespace name its node can
touch (its own bound name, its decorator/base names) lie in `S`. -/
def defsOK (S : List String) (defs : List (String × Stmt)) : Prop :=
  ∀ p ∈ defs, p.1 ∈ S ∧ ∀ x ∈ stmtNsNames p.2, x ∈ S

/-- The name a definition node binds when executed, if it is one. -/
def defName : Stmt → Option String
  | .funcDef n _ => some n
  | .classDef n _ => some n
  | _ => none

/-- A defs entry binds a definition node under that node's own name, as the
visitor always does. -/
def defEntryWF (p : String × Stmt) : Bool := defName p.2 == some p.1

/-- The analyzer module's own global namespace right after `import marshal`
at the top of source_analyzer.py. -/
def ns0 : Env := [("marshal", .moduleHandle "marshal")]

/-- An initial sys state with a live stdin handle. -/
def sys0 : Sys := { stdin := some 0 }

/-- A host on which importing `os` succeeds, `from os import ...` raises a
plain ImportError (the module exists but lacks the requested name), `marshal`
imports fine, and everything else is missing. -/
def hostImpErr : Host where
  importMod m := if m = "marshal" then .ok (.moduleHandle "marshal") else .notFound
  fromImport m _ := if m = "os" then .raised .importError else .notFound

/-- A host where `marshal` imports and nothing else exists. -/
def hostM : Host where
  importMod m := if m = "marshal" then .ok (.moduleHandle "marshal") else .notFound
  fromImport _ _ := .notFound

/-- A program whose only statement is `from os import nonexistent`. -/
def progC1 : List Stmt := [.importFrom "os" [("nonexistent", none)]]

/-- A benign program: `import marshal` then `x = 5`. -/
def progW1 : List Stmt := [.importStmt [("marshal", none)], .assign "x" (.constI 5)]

/-- A program defining one function whose decorator name resolves nowhere, so
its materialization fails. -/
def progC2 : List Stmt := [.funcDef "f" ["nope"]]

/-- A program defining a function named `marshal` (materialization overwrites
the analyzer module's own `marshal` binding in the shared namespace). -/
def progA9 : List Stmt := [.funcDef "marshal" []]

/-- A program that imports marshal and calls `marshal.loads(b"x")`. -/
def progB9 : List Stmt :=
  [.importStmt [("marshal", none)],
   .exprStmt (.call (.attr (.name "marshal") "loads") [.constB [120]])]

/-- The shared module namespace after a session has analyzed `progA9`. -/
def nsAfterA9 : Env := (runPipeline hostM ns0 sys0 0 progA9).2.1

/-- A session state with one materializable def (`g`) and one failing def
(`f`, decorated with an unresolvable name), as the visitor would build it. -/
def sessC2w : Session :=
  { tree := []
    gvars := [("g", .astStmt (.funcDef "g" [])), ("f", .astStmt (.funcDef "f" ["nope"]))]
    defs := [("g", .funcDef "g" []), ("f", .funcDef "f" ["nope"])]
    computed := false
    sid := 0 }

/-- A session for the C5/C6 witnesses: an `exec` call site, a receiver-confirmed
`marshal.loads` site, plus a binding for `x`. -/
def sessTry : Session :=
  { tree := [.exprStmt (.call (.name "exec") [.constS "print(1)"])]
    gvars := [("x", .intV 3), ("marshal", .moduleHandle "marshal")]
    defs := []
    computed := false
    sid := 0 }

end MM

namespace SafeA

/-- One source line, as a character list (Python slices strings by code point). -/
abbrev Line := List Char

/-- The per-node data get_first_marshal_bytes reads and writes on a collected
argument node: the source span recorded by the parser, and the constant's
bytes value when the node is `ast.Constant` holding `bytes`.
`end_col_offset` is an integer because the function itself decrements it in
place, and repeated calls can drive it negative. -/
structure SNode where
  lineno : Nat
  col_offset : Nat
  end_lineno : Nat
  end_col_offset : Int
  constBytesVal : Option (List Nat)
deriving DecidableEq, Repr

/-- Expressions of the analyzed file as the safe analyzer sees them: every
node carries its span record; shapes beyond constants, names, attributes and
calls are grouped as `sother` with their children. -/
inductive SExpr where
  | sconst (info : SNode)
  | sname (info : SNode) (id : String)
  | sattr (info : SNode) (recv : SExpr) (attrName : String)
  | scall (info : SNode) (f : SExpr) (args : List SExpr)
  | sother (info : SNode) (kids : List SExpr)

/-- The span record of a node. -/
def nodeInfo : SExpr → SNode
  | .sconst i => i
  | .sname i _ => i
  | .sattr i _ _ => i
  | .scall i _ _ => i
  | .sother i _ => i

mutual
/-- CodeVisitor.visit_Call followed by generic_visit: an attribute-call whose
method name is `loads` has its first positional argument node appended to
`loads_calls` — the receiver expression is not examined at all (the receiver
identity check in the source is commented out) — and then all children are
visited. -/
def codeVisitorCollect : SExpr → List SNode
  | .sconst _ => []
  | .sname _ _ => []
  | .sattr _ r _ => codeVisitorCollect r
  | .scall _ f args =>
      (match f, args with
       | .sattr _ _ a0, a :: _ => if a0 = "loads" then [nodeInfo a] else []
       | _, _ => []) ++ (codeVisitorCollect f ++ collectL args)
  | .sother _ kids => collectL kids

def collectL : List SExpr → List SNode
  | [] => []
  | e :: es => codeVisitorCollect e ++ collectL es
end

/-- `enumerate(lines, start=n)`. -/
def enumFromN {α : Type} : Nat → List α → List (Nat × α)
  | _, [] => []
  | n, a :: as => (n, a) :: enumFromN (n + 1) as

/-- The line-selection loop: keep each line whose 1-based index lies in
`[l1, l2]`. -/
def lineRange (lines : List Line) (l1 l2 : Nat) : List Line :=
  (enumFromN 1 lines).filterMap
    (fun p => if l1 ≤ p.1 ∧ p.1 ≤ l2 then some p.2 else none)

/-- Python `s[:i]` with a possibly negative bound. -/
def pyTakeInt (l : Line) (i : Int) : Line :=
  if 0 ≤ i then l.take i.toNat
  else l.take (l.length - min l.length i.natAbs)

/-- In-place update of the last element (`lines[-1] = ...`). -/
def modifyLastL (f : Line → Line) : List Line → List Line
  | [] => []
  | [l] => [f l]
  | l :: l' :: ls => l :: modifyLastL f (l' :: ls)

/-- `"\n".join(lines)`. -/
def joinNL : List Line → Line
  | [] => []
  | [l] => l
  | l :: l' :: ls => l ++ '\n' :: joinNL (l' :: ls)

/-- SourceAnalyzer.get_first_marshal_bytes (safe analyzer), over the
newline-split source and the collected `loads_calls` nodes, parameterized by
the host's bare `eval` of reconstructed source text (which sees no analyzed-file
bindings).  The loop body returns after the first collected node: a literal
bytes constant is taken directly; otherwise the recorded span is sliced out of
the source — mutating the node's `end_col_offset` in place in the single-line
case — and the joined slice is evaluated.  An empty line selection raises
IndexError at `loads_func_lines[0]` before any mutation.  With no collected
nodes the function returns None.  The returned list is the state of
`loads_calls` afterwards. -/
def get_first_marshal_bytes (ev : Line → Except MM.PyErr MM.Value)
    (sourceLines : List Line) :
    List SNode → Except MM.PyErr (Option MM.Value) × List SNode
  | [] => (.ok none, [])
  | arg :: rest =>
      match arg.constBytesVal with
      | some bs => (.ok (some (.bytesV bs)), arg :: rest)
      | none =>
          match lineRange sourceLines arg.lineno arg.end_lineno with
          | [] => (.error .indexError, arg :: rest)
          | first :: others =>
              let first' := first.drop arg.col_offset
              let arg' :=
                if arg.lineno = arg.end_lineno then
                  { arg with end_col_offset := arg.end_col_offset - (arg.col_offset : Int) }
                else arg
              let ls := modifyLastL (fun l => pyTakeInt l arg'.end_col_offset)
                (first' :: others)
              ((ev (joinNL ls)).map some, arg' :: rest)

/-- The 1-based line of the source. -/
def nthLine (lines : List Line) (i : Nat) : Line := lines.getD (i - 1) []

/-- The substring of the source bounded by start/end line and column offsets,
written from the specification: the lines of the span joined by newlines, with
characters before the start column excluded on the first line and characters
at or after the end column excluded on the last line (both on the same line
when the span is single-line). -/
def specSpanText (lines : List Line) (l1 c1 l2 c2 : Nat) : Line :=
  if l1 = l2 then ((nthLine lines l1).take c2).drop c1
  else
    joinNL (((nthLine lines l1).drop c1) ::
      ((lines.drop l1).take (l2 - 1 - l1) ++ [(nthLine lines l2).take c2]))

/-- The span a parser would record: within the source, start before or at end,
end column nonnegative and, on a single line, at or after the start column. -/
def wfSpan (lines : List Line) (a : SNode) : Prop :=
  1 ≤ a.lineno ∧ a.lineno ≤ a.end_lineno ∧ a.end_lineno ≤ lines.length ∧
  0 ≤ a.end_col_offset ∧
  (a.lineno = a.end_lineno → a.col_offset ≤ a.end_col_offset.toNat)

/-- The source line `m.loads(b"a" + b"b")`. -/
def lineC7 : Line := "m.loads(b\"a\" + b\"b\")".data

/-- The span node of the argument `b"a" + b"b"` on that line: columns 8-19 of
line 1, not a literal constant. -/
def argC7 : SNode :=
  { lineno := 1, col_offset := 8, end_lineno := 1, end_col_offset := 19
    constBytesVal := none }

/-- Host eval of reconstructed source text, as Python's bare eval behaves on
the two texts this development slices out of `lineC7`: the full argument text
evaluates to the bytes b"ab"; every other reconstruction (such as the
truncated `b"a` produced after the span is corrupted) fails. -/
def evC7 : Line → Except MM.PyErr MM.Value := fun l =>
  if l = "b\"a\" + b\"b\"".data then .ok (.bytesV [97, 98]) else .error .evalError

/-- A multi-line collected argument: lines 1-2, from column 8 to column 3. -/
def argMulti : SNode :=
  { lineno := 1, col_offset := 8, end_lineno := 2, end_col_offset := 3
    constBytesVal := none }

/-- A two-line source for the multi-line witnesses. -/
def linesMulti : List Line := ["m.loads(b\"a\"".data, "+b\"b\")".data]

/-- Span record of the receiver `foo` in the C3 counterexample. -/
def i9recv : SNode :=
  { lineno := 1, col_offset := 0, end_lineno := 1, end_col_offset := 3
    constBytesVal := none }

/-- Span record of the argument `x` in the C3 counterexample. -/
def i9arg : SNode :=
  { lineno := 1, col_offset := 9, end_lineno := 1, end_col_offset := 10
    constBytesVal := none }

/-- Span record of the attribute `foo.loads` in the C3 counterexample. -/
def i9attr : SNode :=
  { lineno := 1, col_offset := 0, end_lineno := 1, end_col_offset := 9
    constBytesVal := none }

/-- Span record of the call `foo.loads(x)` in the C3 counterexample. -/
def i9call : SNode :=
  { lineno := 1, col_offset := 0, end_lineno := 1, end_col_offset := 11
    constBytesVal := none }

/-- The expression `foo.loads(x)`, where `foo` is not bound anywhere — in
particular it does not resolve to the marshal module. -/
def exprC3 : SExpr :=
  .scall i9call (.sattr i9attr (.sname i9recv "foo") "loads") [.sname i9arg "x"]

/-- A 12-line source whose lines 10-12 carry a multi-line loads argument. -/
def linesC8 : List Line :=
  ["# filler".data, "# filler".data, "# filler".data, "# filler".data,
   "# filler".data, "# filler".data, "# filler".data, "# filler".data,
   "# filler".data, "q.loads(b\"aa\"".data, "+ b\"bb\"".data,
   "+ b\"cc\") # tail".data]

/-- The span of the argument expression spanning lines 10-12, columns 8 to 7. -/
def argC8 : SNode :=
  { lineno := 10, col_offset := 8, end_lineno := 12, end_col_offset := 7
    constBytesVal := none }

/-- Host eval behaving as Python's bare eval on the exact reconstructed span
text of `argC8` (the byte concatenation it denotes); anything else fails. -/
def evC8 : Line → Except MM.PyErr MM.Value := fun l =>
  if l = "b\"aa\"\n+ b\"bb\"\n+ b\"cc\"".data then
    .ok (.bytesV [97, 97, 98, 98, 99, 99])
  else .error .evalError

end SafeA

namespace MM

theorem lookupA_insertA_self {α : Type} (l : List (String × α)) (k : String) (v : α) :
    lookupA (insertA l k v) k = some v := by
  induction l with
  | nil => simp [insertA, lookupA]
  | cons p rest ih =>
      by_cases h : p.1 = k
      · simp [insertA, h, lookupA]
      · simp [insertA, h, lookupA, ih]

theorem lookupA_insertA_ne {α : Type} (l : List (String × α)) (k k' : String) (v : α)
    (h : k' ≠ k) : lookupA (insertA l k v) k' = lookupA l k' := by
  induction l with
  | nil => simp [insertA, lookupA, Ne.symm h]
  | cons p rest ih =>
      by_cases hp : p.1 = k
      · subst hp
        simp only [insertA, if_pos rfl, lookupA]
        rw [if_neg (Ne.symm h), if_neg (Ne.symm h)]
      · simp only [insertA, if_neg hp, lookupA]
        by_cases hk : p.1 = k'
        · simp [hk]
        · simp [hk, ih]

theorem lookupA_eraseA_self {α : Type} (l : List (String × α)) (k : String) :
    lookupA (eraseA l k) k = none := by
  induction l with
  | nil => simp [eraseA, lookupA]
  | cons p rest ih =>
      by_cases h : p.1 = k
      · simpa [eraseA, h] using ih
      · simpa [eraseA, h, lookupA] using ih

theorem lookupA_eraseA_ne {α : Type} (l : List (String × α)) (k k' : String)
    (h : k' ≠ k) : lookupA (eraseA l k) k' = lookupA l k' := by
  induction l with
  | nil => simp [eraseA, lookupA]
  | cons p rest ih =>
      by_cases hp : p.1 = k
      · subst hp
        rw [show eraseA (p :: rest) p.1 = eraseA rest p.1 by simp [eraseA]]
        rw [ih, lookupA, if_neg (Ne.symm h)]
      · by_cases hk : p.1 = k'
        · simp [eraseA, hp, lookupA, hk, if_neg h]
        · simp [eraseA, hp, lookupA, hk, ih]

theorem mem_insertA {α : Type} (l : List (String × α)) (k : String) (v : α) (p : String × α)
    (h : p ∈ insertA l k v) : p = (k, v) ∨ p ∈ l := by
  induction l with
  | nil => simpa [insertA] using h
  | cons q rest ih =>
      by_cases hq : q.1 = k
      · simp only [insertA, if_pos hq, List.mem_cons] at h
        rcases h with h | h
        · exact Or.inl h
        · exact Or.inr (List.mem_cons_of_mem _ h)
      · simp only [insertA, if_neg hq, List.mem_cons] at h
        rcases h with h | h
        · exact Or.inr (by simp [h])
        · rcases ih h with h' | h'
          · exact Or.inl h'
          · exact Or.inr (List.mem_cons_of_mem _ h')

theorem visit_Import_ok (h : Host) (vs : VisState) (names : List (String × Option String))
    (hok : names.all (fun p =>
        match h.importMod p.1 with
        | .raised _ => false
        | _ => true) = true) :
    (visit_Import h vs names).2 = .ok () := by
  induction names generalizing vs with
  | nil => rfl
  | cons p rest ih =>
      simp only [List.all_cons, Bool.and_eq_true] at hok
      rcases p with ⟨modName, asname⟩
      rcases him : h.importMod modName with v | _ | e
      · simpa [visit_Import, him] using ih _ hok.2
      · simpa [visit_Import, him] using ih _ hok.2
      · rw [him] at hok
        simp at hok

theorem visitStmt_ok (h : Host) (vs : VisState) (st : Stmt)
    (hok : stmtImportsOk h st = true) : (visitStmt h vs st).2 = .ok () := by
  cases st with
  | assign t v => rfl
  | assignOther => rfl
  | funcDef n decs => rfl
  | classDef n bases => rfl
  | importStmt names => exact visit_Import_ok h vs names hok
  | importFrom m names =>
      rcases hf : h.fromImport m names with binds | _ | e
      · simp [visitStmt, visit_ImportFrom, hf]
      · simp [visitStmt, visit_ImportFrom, hf]
      · rw [stmtImportsOk, hf] at hok
        simp at hok
  | exprStmt e => rfl
  | other => rfl

theorem visitBody_ok (h : Host) (vs : VisState) (tree : List Stmt)
    (hok : tree.all (stmtImportsOk h) = true) :
    (visitBody h vs tree).2 = .ok () := by
  induction tree generalizing vs with
  | nil => rfl
  | cons st rest ih =>
      simp only [List.all_cons, Bool.and_eq_true] at hok
      have hst := visitStmt_ok h vs st hok.1
      rcases he : visitStmt h vs st with ⟨vs', r⟩
      rw [he] at hst
      simp only at hst
      subst hst
      simpa [visitBody, he] using ih vs' hok.2

end MM

namespace MM

/-- C1 counterexample.  The claim states that for every source text that
parses, the pipeline raises nothing to the caller except a parse error.  The
program `from os import nonexistent` parses, yet on a host whose `os` module
exists but lacks the requested name, executing the from-import statement
raises ImportError — which is not a ModuleNotFoundError, so visit_ImportFrom
does not catch it and it escapes the SourceAnalyzer constructor: the pipeline
returns no result collections at all. -/
theorem c1_counterexample :
    (runPipeline hostImpErr ns0 sys0 0 progC1).1 = .error .importError := rfl

/-- C1 amended: for every source text that parses, the only exceptions that
escape the public pipeline are parse errors and exceptions other than
module-not-found raised while executing an import or from-import statement
during symbol-table construction; when every import statement either succeeds
or fails with module-not-found, the pipeline returns the three (possibly
empty) result collections. -/
theorem c1_pipeline_no_raise (h : Host) (ns : Env) (sys : Sys) (sid : Nat)
    (tree : List Stmt) (hok : tree.all (stmtImportsOk h) = true) :
    ∃ out, (runPipeline h ns sys sid tree).1 = .ok out := by
  have hvb := visitBody_ok h { gvars := [], defs := [] } tree hok
  unfold runPipeline gvVisit
  rcases he : visitBody h { gvars := [], defs := [] } tree with ⟨vs', r⟩
  rw [he] at hvb
  simp only at hvb
  subst hvb
  exact ⟨_, rfl⟩

/-- C1 witness: a concrete benign program (`import marshal; x = 5`) on a
concrete host satisfies the hypothesis and the pipeline returns results. -/
theorem c1_witness :
    progW1.all (stmtImportsOk hostM) = true ∧
    ∃ out, (runPipeline hostM ns0 sys0 0 progW1).1 = .ok out :=
  ⟨by decide, c1_pipeline_no_raise hostM ns0 sys0 0 progW1 (by decide)⟩

end MM

namespace MM

/-- C4 counterexample.  The claim states that the stdin handle saved before
the traversal is restored on every exit path, including when the traversal
raises.  Running the visitor over `from os import nonexistent` on a host where
that raises ImportError leaves sys.stdin holding the disabled sentinel (`none`)
while the saved handle was `some 0`: the restoring assignment after
`super().visit(node)` is never reached. -/
theorem c4_counterexample :
    (gvVisit hostImpErr sys0 { gvars := [], defs := [] } progC1).1.stdin = none ∧
    sys0.stdin = some 0 ∧
    (gvVisit hostImpErr sys0 { gvars := [], defs := [] } progC1).2.2
      = .error .importError :=
  ⟨rfl, rfl, rfl⟩

/-- C4 amended: the original stdin handle is saved and replaced with the
disabled sentinel, and it is restored when the traversal returns normally; when
the traversal raises, the exception propagates with stdin left holding the
disabled sentinel (there is no try/finally around the restore). -/
theorem c4_stdin_restored_only_on_success (h : Host) (sys : Sys) (vs : VisState)
    (tree : List Stmt) :
    (gvVisit h sys vs tree).1.stdin
      = cond (isOkE (gvVisit h sys vs tree).2.2) sys.stdin none := by
  unfold gvVisit
  rcases he : visitBody h vs tree with ⟨vs', r⟩
  cases r with
  | ok u => rfl
  | error e => rfl

/-- C5: during try_to_get_exec_restults the dynamic-execution name is bound in
the merged environment to the identity lambda (which returns its first
argument), every located direct call of that name is evaluated under that
binding with per-site failures caught, and before the pass returns the key is
popped: it is absent from the merged environment afterwards while every other
binding is untouched. -/
theorem c5_exec_rebinding_scoped (ns : Env) (s : Session) (id0 : String) :
    lookupA (try_to_get_exec_restults ns s id0).2.2.gvars id0 = none ∧
    (∀ k, k ≠ id0 →
      lookupA (try_to_get_exec_restults ns s id0).2.2.gvars k
        = lookupA (globals_prop ns s).2.2 k) ∧
    (try_to_get_exec_restults ns s id0).1
      = try_loop (insertA (globals_prop ns s).2.2 id0 .identityFn) id0
          (walkCalls (globals_prop ns s).2.1.tree) ∧
    (∀ v vs, applyVal .identityFn (v :: vs) = .ok v) := by
  refine ⟨?_, ?_, rfl, fun v vs => rfl⟩
  · exact lookupA_eraseA_self _ id0
  · intro k hk
    show lookupA (eraseA (insertA (globals_prop ns s).2.2 id0 .identityFn) id0) k = _
    rw [lookupA_eraseA_ne _ id0 k hk, lookupA_insertA_ne _ id0 k _ hk]

/-- C5 witness: on a concrete session with an `exec` call site and a binding
for `x`, the temporary binding is gone afterwards and `x` is untouched. -/
theorem c5_witness :
    lookupA (try_to_get_exec_restults ns0 sessTry "exec").2.2.gvars "exec" = none ∧
    lookupA (try_to_get_exec_restults ns0 sessTry "exec").2.2.gvars "x"
      = lookupA (globals_prop ns0 sessTry).2.2 "x" :=
  ⟨(c5_exec_rebinding_scoped ns0 sessTry "exec").1,
   (c5_exec_rebinding_scoped ns0 sessTry "exec").2.1 "x" (by decide)⟩

theorem get_bytecodes_loop_eq_filterMap (ns g : Env) (calls : List Expr) :
    get_bytecodes_loop ns g calls = calls.filterMap (loadsSiteHead ns g) := by
  induction calls with
  | nil => rfl
  | cons c rest ih =>
      rcases hc : loadsSiteHead ns g c with _ | v
      · simpa [get_bytecodes_loop, hc, List.filterMap_cons] using ih
      · simpa [get_bytecodes_loop, hc, List.filterMap_cons] using ih

theorem try_loop_eq_filterMap (env : Env) (id0 : String) (calls : List Expr) :
    try_loop env id0 calls = calls.filterMap (execSiteHead env id0) := by
  induction calls with
  | nil => rfl
  | cons c rest ih =>
      rcases hc : execSiteHead env id0 c with _ | v
      · simpa [try_loop, hc, List.filterMap_cons] using ih
      · simpa [try_loop, hc, List.filterMap_cons] using ih

/-- C6: each located call site is resolved under its own exception handler, so
both resolution loops compute exactly the per-site resolutions of all sites
(failures dropped), and removing a failing site from the walk leaves the other
sites' results unchanged: one failing site never aborts resolution of the
remaining sites in get_bytecodes or try_to_get_exec_restults. -/
theorem c6_per_site_isolation (ns g : Env) (calls : List Expr) :
    get_bytecodes_loop ns g calls = calls.filterMap (loadsSiteHead ns g) ∧
    (∀ env id0, try_loop env id0 calls = calls.filterMap (execSiteHead env id0)) ∧
    (∀ pre c post, loadsSiteHead ns g c = none →
        get_bytecodes_loop ns g (pre ++ c :: post)
          = get_bytecodes_loop ns g (pre ++ post)) ∧
    (∀ env id0 pre c post, execSiteHead env id0 c = none →
        try_loop env id0 (pre ++ c :: post) = try_loop env id0 (pre ++ post)) := by
  refine ⟨get_bytecodes_loop_eq_filterMap ns g calls,
          fun env id0 => try_loop_eq_filterMap env id0 calls, ?_, ?_⟩
  · intro pre c post hc
    rw [get_bytecodes_loop_eq_filterMap, get_bytecodes_loop_eq_filterMap,
        List.filterMap_append, List.filterMap_append, List.filterMap_cons, hc]
  · intro env id0 pre c post hc
    rw [try_loop_eq_filterMap, try_loop_eq_filterMap,
        List.filterMap_append, List.filterMap_append, List.filterMap_cons, hc]

/-- C6 witness: with a failing `exec` site (undefined argument name) between
two resolvable sites, dropping the failing site leaves the loop's output
unchanged, at a concrete environment. -/
theorem c6_witness :
    execSiteHead [("exec", Value.identityFn)] "exec"
        (.call (.name "exec") [.name "undefinedname"]) = none ∧
    try_loop [("exec", Value.identityFn)] "exec"
        [.call (.name "exec") [.constS "a"],
         .call (.name "exec") [.name "undefinedname"],
         .call (.name "exec") [.constS "b"]]
      = try_loop [("exec", Value.identityFn)] "exec"
        [.call (.name "exec") [.constS "a"], .call (.name "exec") [.constS "b"]] :=
  ⟨rfl,
   (c6_per_site_isolation ns0 ns0
      [Expr.call (.name "exec") [.constS "a"],
       Expr.call (.name "exec") [.constS "b"]]).2.2.2
     [("exec", Value.identityFn)] "exec"
     [.call (.name "exec") [.constS "a"]]
     (.call (.name "exec") [.name "undefinedname"])
     [.call (.name "exec") [.constS "b"]] rfl⟩

end MM

namespace SafeA

/-- C10: get_first_marshal_bytes resolves at most one payload: with no
collected `loads` call it returns None; with collected calls its result is the
result for the first collected argument alone (literal fast path or
sliced-and-evaluated, including that path's failure), every later collected
call is ignored and left untouched in the list. -/
theorem c10_first_payload_only :
    (∀ ev lines, get_first_marshal_bytes ev lines [] = (.ok none, [])) ∧
    (∀ ev lines a rest,
       (get_first_marshal_bytes ev lines (a :: rest)).1
         = (get_first_marshal_bytes ev lines [a]).1 ∧
       ∃ a', (get_first_marshal_bytes ev lines (a :: rest)).2 = a' :: rest) := by
  refine ⟨fun ev lines => rfl, fun ev lines a rest => ?_⟩
  rcases hb : a.constBytesVal with _ | bs
  · rcases hr : lineRange lines a.lineno a.end_lineno with _ | ⟨first, others⟩
    · exact ⟨by simp [get_first_marshal_bytes, hb, hr], a, by simp [get_first_marshal_bytes, hb, hr]⟩
    · exact ⟨by simp [get_first_marshal_bytes, hb, hr],
        (if a.lineno = a.end_lineno then
          { a with end_col_offset := a.end_col_offset - (a.col_offset : Int) }
         else a),
        by simp [get_first_marshal_bytes, hb, hr]⟩
  · exact ⟨by simp [get_first_marshal_bytes, hb], a, by simp [get_first_marshal_bytes, hb]⟩

end SafeA

namespace MM

/-- C2 counterexample.  The claim states a failed materialization leaves its
key bound to nothing in the final merged environment.  For the program
`@nope` + `def f(): ...` (a function whose decorator name resolves nowhere),
materialization fails, yet the merged environment the pipeline returns still
maps `f` — to the raw captured definition node the visitor stored, which the
materialization pass never removes. -/
theorem c2_counterexample :
    lookupA (pipeGlobals (runPipeline hostM ns0 sys0 0 progC2).1) "f"
      = some (.astStmt (.funcDef "f" ["nope"])) := rfl

/-- C3 counterexample.  The claim states an attribute-call named `loads` whose
receiver does not resolve to the marshal module is not recorded.  In the safe
analyzer's CodeVisitor (the locator cited by the claim), `foo.loads(x)` is
recorded into `loads_calls` although `foo` is bound to nothing at all: the
visitor matches on the method name only (its receiver check is commented out
in the source). -/
theorem c3_counterexample :
    SafeA.codeVisitorCollect SafeA.exprC3 = [SafeA.i9arg] := rfl

/-- C9 counterexample.  The claim states no operation of one analysis session
writes to state shared with another session, so results of two sessions are
independent.  Materialization execs definitions into the analyzer module's own
global namespace (the `globals()` argument in the source), which get_bytecodes
also reads to resolve the name `marshal` for its receiver identity check.
Analyzing a file that defines `def marshal(): ...` overwrites that shared
binding, and afterwards an unrelated session analyzing `import marshal;
marshal.loads(b"x")` recovers no payloads, while the same session run on a
fresh namespace recovers one. -/
theorem c9_counterexample :
    bytecodesOf (runPipeline hostM ns0 sys0 1 progB9).1 = [.bytesV [120]] ∧
    bytecodesOf (runPipeline hostM nsAfterA9 sys0 1 progB9).1 = [] ∧
    lookupA nsAfterA9 "marshal" = some (.matV 0 "marshal") :=
  ⟨rfl, rfl, rfl⟩

end MM

namespace SafeA

/-- C7 counterexample.  The claim states running a resolution operation twice
on the same input yields identical outputs.  For the single-line source
`m.loads(b"a" + b"b")`, the first call of get_first_marshal_bytes slices the
exact argument text and resolves b"ab"; in doing so it decrements the
argument node's recorded end column in place, so the second call slices the
truncated text `b"a` and fails. -/
theorem c7_counterexample :
    (get_first_marshal_bytes evC7 [lineC7] [argC7]).1
      = .ok (some (.bytesV [97, 98])) ∧
    (get_first_marshal_bytes evC7 [lineC7]
        (get_first_marshal_bytes evC7 [lineC7] [argC7]).2).1
      = .error .evalError :=
  ⟨rfl, rfl⟩

end SafeA

namespace MM

theorem execDef_some_of_wf (ns : Env) (sid : Nat) (k : String) (b : Stmt)
    (hwf : defEntryWF (k, b) = true) (p : String × Value)
    (hp : execDef ns sid b = some p) : p = (k, .matV sid k) := by
  cases b with
  | funcDef n decs =>
      have hn : n = k := by simpa [defEntryWF, defName] using hwf
      subst hn
      by_cases hd : decs.all (resolvesName ns) = true
      · rw [execDef, if_pos hd] at hp
        exact (Option.some.inj hp).symm
      · rw [execDef, if_neg hd] at hp
        cases hp
  | classDef n bases =>
      have hn : n = k := by simpa [defEntryWF, defName] using hwf
      subst hn
      by_cases hd : bases.all (resolvesName ns) = true
      · rw [execDef, if_pos hd] at hp
        exact (Option.some.inj hp).symm
      · rw [execDef, if_neg hd] at hp
        cases hp
  | assign t v => simp [defEntryWF, defName] at hwf
  | assignOther => simp [defEntryWF, defName] at hwf
  | importStmt names => simp [defEntryWF, defName] at hwf
  | importFrom m names => simp [defEntryWF, defName] at hwf
  | exprStmt e => simp [defEntryWF, defName] at hwf
  | other => simp [defEntryWF, defName] at hwf

theorem materializeLoop_lookup_notin (sid : Nat) (defs : List (String × Stmt))
    (ns : Env) (x : String)
    (hwf : defs.all defEntryWF = true) (hx : x ∉ defs.map Prod.fst) :
    lookupA (materializeLoop ns sid defs).1 x = lookupA ns x := by
  induction defs generalizing ns with
  | nil => rfl
  | cons e rest ih =>
      rcases e with ⟨k, b⟩
      simp only [List.all_cons, Bool.and_eq_true] at hwf
      simp only [List.map_cons, List.mem_cons, not_or] at hx
      rcases hed : execDef ns sid b with _ | p
      · simpa [materializeLoop, hed] using ih ns hwf.2 hx.2
      · have hpk := execDef_some_of_wf ns sid k b hwf.1 p hed
        subst hpk
        rw [materializeLoop, hed]
        rw [ih _ hwf.2 hx.2, lookupA_insertA_ne _ k x _ (Ne.symm (fun he => hx.1 he.symm))]

theorem materializeLoop_lookup_success (sid : Nat) (defs : List (String × Stmt))
    (ns : Env) (k : String) (b : Stmt)
    (hwf : defs.all defEntryWF = true) (hnd : (defs.map Prod.fst).Nodup)
    (hmem : (k, b) ∈ defs) (hndel : k ∉ (materializeLoop ns sid defs).2) :
    lookupA (materializeLoop ns sid defs).1 k = some (.matV sid k) := by
  induction defs generalizing ns with
  | nil => cases hmem
  | cons e rest ih =>
      rcases e with ⟨k', b'⟩
      simp only [List.all_cons, Bool.and_eq_true] at hwf
      simp only [List.map_cons, List.nodup_cons] at hnd
      rcases List.mem_cons.mp hmem with hhead | htail
      · injection hhead with hk hb
        subst hk
        subst hb
        rcases hed : execDef ns sid b with _ | p
        · exfalso
          apply hndel
          rw [materializeLoop, hed]
          exact List.mem_cons_self _ _
        · have hpk := execDef_some_of_wf ns sid k b hwf.1 p hed
          subst hpk
          rw [materializeLoop, hed]
          rw [materializeLoop_lookup_notin sid rest _ k hwf.2 hnd.1]
          exact lookupA_insertA_self _ k _
      · have hkrest : k ∈ rest.map Prod.fst :=
          List.mem_map.mpr ⟨(k, b), htail, rfl⟩
        rcases hed : execDef ns sid b' with _ | p
        · rw [materializeLoop, hed] at hndel ⊢
          exact ih ns hwf.2 hnd.2 htail
            (fun hm => hndel (List.mem_cons_of_mem _ hm))
        · have hpk := execDef_some_of_wf ns sid k' b' hwf.1 p hed
          subst hpk
          rw [materializeLoop, hed] at hndel ⊢
          exact ih _ hwf.2 hnd.2 htail hndel

theorem adoptLoop_lookup_notin (nsF : Env) (del : List String) (defs : List (String × Stmt))
    (g : Env) (x : String) (hx : x ∉ defs.map Prod.fst) :
    lookupA (adoptLoop nsF del g defs) x = lookupA g x := by
  induction defs generalizing g with
  | nil => rfl
  | cons e rest ih =>
      rcases e with ⟨k, b⟩
      simp only [List.map_cons, List.mem_cons, not_or] at hx
      by_cases hc : k ∈ del
      · rw [adoptLoop, if_pos hc]
        exact ih g hx.2
      · rw [adoptLoop, if_neg hc]
        rw [ih _ hx.2, lookupA_insertA_ne _ k x _ (Ne.symm (fun he => hx.1 he.symm))]

theorem adoptLoop_lookup_deleted (nsF : Env) (del : List String)
    (defs : List (String × Stmt)) (g : Env) (k : String)
    (hk : k ∈ del) :
    lookupA (adoptLoop nsF del g defs) k = lookupA g k := by
  induction defs generalizing g with
  | nil => rfl
  | cons e rest ih =>
      rcases e with ⟨k', b'⟩
      by_cases hc : k' ∈ del
      · rw [adoptLoop, if_pos hc]
        exact ih g
      · have hne : k ≠ k' := fun he => hc (he ▸ hk)
        rw [adoptLoop, if_neg hc, ih, lookupA_insertA_ne _ k' k _ hne]

theorem adoptLoop_lookup_success (nsF : Env) (del : List String)
    (defs : List (String × Stmt)) (g : Env) (k : String) (b : Stmt)
    (hnd : (defs.map Prod.fst).Nodup) (hmem : (k, b) ∈ defs)
    (hc : k ∉ del) :
    lookupA (adoptLoop nsF del g defs) k = some ((lookupA nsF k).getD .noneV) := by
  induction defs generalizing g with
  | nil => cases hmem
  | cons e rest ih =>
      rcases e with ⟨k', b'⟩
      simp only [List.map_cons, List.nodup_cons] at hnd
      rcases List.mem_cons.mp hmem with hhead | htail
      · injection hhead with hk hb
        subst hk
        subst hb
        rw [adoptLoop, if_neg hc]
        rw [adoptLoop_lookup_notin nsF del rest _ k hnd.1]
        exact lookupA_insertA_self _ k _
      · by_cases hck : k' ∈ del
        · rw [adoptLoop, if_pos hck]
          exact ih _ hnd.2 htail
        · rw [adoptLoop, if_neg hck]
          exact ih _ hnd.2 htail

end MM

namespace MM

/-- C2 amended: after the materialization pass, a deferred definition whose
re-execution failed keeps exactly the binding the visitor gave it — the raw
definition node — in the final merged environment (the pass never removes or
downgrades it), while a definition whose re-execution succeeded is rebound to
the materialized live value; the merged environment is the visitor table with
only the successfully materialized keys upgraded.  (Hypotheses: the def table
binds each node under its own name with distinct keys, as the visitor builds
it, and the memoized environment is not yet set.) -/
theorem c2_failed_defs_remain_bound (ns : Env) (s : Session) (k : String) (b : Stmt)
    (hwf : s.defs.all defEntryWF = true)
    (hnd : (s.defs.map Prod.fst).Nodup)
    (hmemo : (s.computed && !s.gvars.isEmpty) = false)
    (hmem : (k, b) ∈ s.defs) :
    (k ∈ (materializeLoop ns s.sid s.defs).2 →
        lookupA (globals_prop ns s).2.2 k = lookupA s.gvars k) ∧
    (k ∉ (materializeLoop ns s.sid s.defs).2 →
        lookupA (globals_prop ns s).2.2 k = some (.matV s.sid k)) := by
  have hng : (globals_prop ns s).2.2
      = adoptLoop (materializeLoop ns s.sid s.defs).1
          (materializeLoop ns s.sid s.defs).2 s.gvars s.defs := by
    rw [globals_prop, if_neg (by simp [hmemo])]
  constructor
  · intro hdel
    rw [hng]
    exact adoptLoop_lookup_deleted _ _ _ _ k hdel
  · intro hndel
    rw [hng]
    rw [adoptLoop_lookup_success _ _ _ _ k b hnd hmem hndel]
    rw [materializeLoop_lookup_success s.sid s.defs ns k b hwf hnd hmem hndel]
    rfl

/-- C2 witness: in a session holding a materializable def `g` and a def `f`
whose decorator resolves nowhere, `f` is recorded failed yet stays bound (to
its node, per the visitor table) and `g` is rebound to its live value. -/
theorem c2_witness :
    "f" ∈ (materializeLoop ns0 sessC2w.sid sessC2w.defs).2 ∧
    lookupA (globals_prop ns0 sessC2w).2.2 "f" = lookupA sessC2w.gvars "f" ∧
    lookupA (globals_prop ns0 sessC2w).2.2 "g" = some (.matV 0 "g") :=
  ⟨by decide,
   (c2_failed_defs_remain_bound ns0 sessC2w "f" (.funcDef "f" ["nope"])
      (by decide) (by decide) rfl
      (List.Mem.tail _ (List.Mem.head _))).1 (by decide),
   (c2_failed_defs_remain_bound ns0 sessC2w "g" (.funcDef "g" [])
      (by decide) (by decide) rfl
      (List.Mem.head _)).2 (by decide)⟩

end MM

namespace MM

theorem loadsSiteHead_some_inv (ns g : Env) (c : Expr) (v : Value)
    (h : loadsSiteHead ns g c = some v) :
    ∃ recv args a rest,
      c = Expr.call (.attr (.name recv) "loads") args ∧
      isMarshalRecv ns g recv = true ∧ args = a :: rest ∧
      evalExpr g a = .ok v := by
  cases c with
  | constI n => cases h
  | constS s => cases h
  | constB bs => cases h
  | name x => cases h
  | lam => cases h
  | attr r a0 => cases h
  | call f args =>
      cases f with
      | constI n => cases h
      | constS s => cases h
      | constB bs => cases h
      | name x => cases h
      | lam => cases h
      | call f' args' => cases h
      | attr r a0 =>
          cases r with
          | constI n => cases h
          | constS s => cases h
          | constB bs => cases h
          | lam => cases h
          | call f' args' => cases h
          | attr r' a1 => cases h
          | name recv =>
              by_cases hcond : (isMarshalRecv ns g recv && (a0 == "loads")) = true
              · have hmr : isMarshalRecv ns g recv = true :=
                  (Bool.and_eq_true _ _ ▸ hcond).1
                have ha0 : a0 = "loads" :=
                  eq_of_beq (Bool.and_eq_true _ _ ▸ hcond).2
                subst ha0
                cases args with
                | nil =>
                    simp only [loadsSiteHead, if_pos hcond] at h
                    cases h
                | cons a rest =>
                    simp only [loadsSiteHead, if_pos hcond] at h
                    rcases he : evalExpr g a with e | w
                    · rw [he] at h
                      simp [Except.toOption] at h
                    · rw [he] at h
                      have hv : w = v := by simpa [Except.toOption] using h
                      subst hv
                      exact ⟨recv, a :: rest, a, rest, rfl, hmr, rfl, he⟩
              · simp only [loadsSiteHead, if_neg hcond] at h
                cases h

/-- C3 corrected: in the exec analyzer's get_bytecodes, every recorded and
resolved payload does come from an attribute call named `loads` whose receiver
name resolves, through the merged environment, to the very object the
analyzer's module frame calls `marshal` — a name match alone never suffices
there.  In the safe analyzer's locator, however, any attribute call named
`loads` with at least one argument is recorded, with no receiver confirmation
at all. -/
theorem c3_receiver_confirmation :
    (∀ ns g calls v, v ∈ get_bytecodes_loop ns g calls →
       ∃ recv args a rest,
         Expr.call (.attr (.name recv) "loads") args ∈ calls ∧
         isMarshalRecv ns g recv = true ∧ args = a :: rest ∧
         evalExpr g a = .ok v) ∧
    (∀ i j recvE a rest,
       SafeA.nodeInfo a ∈
         SafeA.codeVisitorCollect (.scall i (.sattr j recvE "loads") (a :: rest))) := by
  constructor
  · intro ns g calls
    induction calls with
    | nil => intro v hv; cases hv
    | cons c cs ih =>
        intro v hv
        rcases hc : loadsSiteHead ns g c with _ | w
        · rw [get_bytecodes_loop, hc] at hv
          rcases ih v hv with ⟨recv, args, a, rest, hmem, hmr, hargs, he⟩
          exact ⟨recv, args, a, rest, List.mem_cons_of_mem _ hmem, hmr, hargs, he⟩
        · rw [get_bytecodes_loop, hc] at hv
          rcases List.mem_cons.mp hv with hvw | hvtail
          · subst hvw
            rcases loadsSiteHead_some_inv ns g c v hc with
              ⟨recv, args, a, rest, hce, hmr, hargs, he⟩
            exact ⟨recv, args, a, rest, hce ▸ List.mem_cons_self _ _, hmr, hargs, he⟩
          · rcases ih v hvtail with ⟨recv, args, a, rest, hmem, hmr, hargs, he⟩
            exact ⟨recv, args, a, rest, List.mem_cons_of_mem _ hmem, hmr, hargs, he⟩
  · intro i j recvE a rest
    simp [SafeA.codeVisitorCollect]

/-- C3 witness: a receiver-confirmed call `m.loads(b"\x01")` with `m` bound to
the marshal module yields a payload, and the theorem recovers the confirmed
site for it. -/
theorem c3_witness :
    Value.bytesV [1] ∈ get_bytecodes_loop ns0 [("m", .moduleHandle "marshal")]
        [.call (.attr (.name "m") "loads") [.constB [1]]] ∧
    ∃ recv args a rest,
      Expr.call (.attr (.name recv) "loads") args ∈
        [Expr.call (.attr (.name "m") "loads") [.constB [1]]] ∧
      isMarshalRecv ns0 [("m", .moduleHandle "marshal")] recv = true ∧
      args = a :: rest ∧
      evalExpr [("m", .moduleHandle "marshal")] a = .ok (.bytesV [1]) :=
  ⟨List.Mem.head _,
   c3_receiver_confirmation.1 ns0 [("m", .moduleHandle "marshal")]
     [.call (.attr (.name "m") "loads") [.constB [1]]] (.bytesV [1])
     (List.Mem.head _)⟩

end MM

namespace SafeA

/-- C7 amended: re-invoking a resolution operation yields the identical result
and leaves the collected call sites unchanged whenever no loads call was
collected, or the first collected payload argument is a literal bytes constant,
or its span covers more than one line; but the single-line non-literal
slicing path decrements the stored end column in place, so for such payloads a
second invocation slices different text and can yield a different output
(see the counterexample). -/
theorem c7_slicing_idempotent_cases (ev : Line → Except MM.PyErr MM.Value)
    (lines : List Line) (calls : List SNode)
    (hcond : calls = [] ∨ ∃ a rest, calls = a :: rest ∧
       (a.constBytesVal ≠ none ∨ a.lineno ≠ a.end_lineno)) :
    get_first_marshal_bytes ev lines (get_first_marshal_bytes ev lines calls).2
      = get_first_marshal_bytes ev lines calls := by
  rcases hcond with hnil | ⟨a, rest, hc, hcase⟩
  · subst hnil
    rfl
  · subst hc
    rcases hbv : a.constBytesVal with _ | bs
    · have hl : a.lineno ≠ a.end_lineno := by
        rcases hcase with hb | hl
        · exact absurd hbv hb
        · exact hl
      rcases hr : lineRange lines a.lineno a.end_lineno with _ | ⟨first, others⟩
      · have hstate : (get_first_marshal_bytes ev lines (a :: rest)).2 = a :: rest := by
          simp [get_first_marshal_bytes, hbv, hr]
        rw [hstate]
      · have hstate : (get_first_marshal_bytes ev lines (a :: rest)).2 = a :: rest := by
          simp [get_first_marshal_bytes, hbv, hr, hl]
        rw [hstate]
    · have hstate : (get_first_marshal_bytes ev lines (a :: rest)).2 = a :: rest := by
        simp [get_first_marshal_bytes, hbv]
      rw [hstate]

/-- C7 witness: for a multi-line collected payload the operation is idempotent
on a concrete source. -/
theorem c7_witness :
    argMulti.lineno ≠ argMulti.end_lineno ∧
    get_first_marshal_bytes evC7 linesMulti
        (get_first_marshal_bytes evC7 linesMulti [argMulti]).2
      = get_first_marshal_bytes evC7 linesMulti [argMulti] :=
  ⟨by decide,
   c7_slicing_idempotent_cases evC7 linesMulti [argMulti]
     (Or.inr ⟨argMulti, [], rfl, Or.inr (by decide)⟩)⟩

end SafeA

namespace SafeA

theorem enumFilter_ge (l1 l2 : Nat) (lines : List Line) (n : Nat) (hn : l1 ≤ n) :
    (enumFromN n lines).filterMap
        (fun p => if l1 ≤ p.1 ∧ p.1 ≤ l2 then some p.2 else none)
      = lines.take (l2 + 1 - n) := by
  induction lines generalizing n with
  | nil => simp [enumFromN]
  | cons a as ih =>
      rw [enumFromN, List.filterMap_cons]
      by_cases h2 : n ≤ l2
      · rw [if_pos ⟨hn, h2⟩, ih (n+1) (by omega)]
        rw [show l2 + 1 - n = (l2 - n) + 1 by omega, List.take_succ_cons]
        rw [show l2 + 1 - (n + 1) = l2 - n by omega]
      · rw [if_neg (fun hc => h2 hc.2), ih (n+1) (by omega)]
        rw [show l2 + 1 - (n + 1) = 0 by omega, show l2 + 1 - n = 0 by omega]
        simp

theorem enumFilter_le (l1 l2 : Nat) (lines : List Line) (n : Nat) (hn : n ≤ l1) :
    (enumFromN n lines).filterMap
        (fun p => if l1 ≤ p.1 ∧ p.1 ≤ l2 then some p.2 else none)
      = (lines.drop (l1 - n)).take (l2 + 1 - l1) := by
  induction lines generalizing n with
  | nil => simp [enumFromN]
  | cons a as ih =>
      rcases Nat.eq_or_lt_of_le hn with he | hlt
      · subst he
        rw [enumFromN, List.filterMap_cons]
        by_cases h2 : n ≤ l2
        · rw [if_pos ⟨le_refl n, h2⟩, enumFilter_ge n l2 as (n+1) (by omega)]
          rw [show n - n = 0 by omega, List.drop_zero]
          rw [show l2 + 1 - n = (l2 - n) + 1 by omega, List.take_succ_cons]
          rw [show l2 + 1 - (n + 1) = l2 - n by omega]
        · rw [if_neg (fun hc => h2 hc.2), enumFilter_ge n l2 as (n+1) (by omega)]
          rw [show l2 + 1 - (n + 1) = 0 by omega, show n - n = 0 by omega,
              List.drop_zero, show l2 + 1 - n = 0 by omega]
          simp
      · rw [enumFromN, List.filterMap_cons, if_neg (fun hc => absurd hc.1 (by omega))]
        rw [ih (n+1) (by omega)]
        rw [show l1 - n = (l1 - (n + 1)) + 1 by omega, List.drop_succ_cons]

theorem lineRange_eq_slice (lines : List Line) (l1 l2 : Nat) (h1 : 1 ≤ l1) :
    lineRange lines l1 l2 = (lines.drop (l1 - 1)).take (l2 + 1 - l1) :=
  enumFilter_le l1 l2 lines 1 h1

theorem modifyLastL_append (f : Line → Line) (ys : List Line) (z : Line) :
    modifyLastL f (ys ++ [z]) = ys ++ [f z] := by
  induction ys with
  | nil => rfl
  | cons y ys ih =>
      cases ys with
      | nil => rfl
      | cons y' ys' =>
          show y :: modifyLastL f ((y' :: ys') ++ [z]) = y :: ((y' :: ys') ++ [f z])
          rw [ih]

theorem take_drop_comm {α : Type} (l : List α) (a b : Nat) :
    (l.take b).drop a = (l.drop a).take (b - a) := by
  induction l generalizing a b with
  | nil => simp
  | cons x xs ih =>
      cases b with
      | zero => simp
      | succ b' =>
          cases a with
          | zero => simp
          | succ a' =>
              rw [List.take_succ_cons, List.drop_succ_cons, List.drop_succ_cons, ih,
                  Nat.succ_sub_succ]

/-- C8: for a collected payload argument that is not a literal bytes constant,
the fallback slicing path evaluates exactly the substring of the source bounded
by the argument's recorded start/end line and column offsets — all characters
outside that span on the boundary lines excluded — with the end column adjusted
relative to the start column in the single-line case; `specSpanText` is that
substring written directly from the specification. -/
theorem c8_span_slicing_exact (ev : Line → Except MM.PyErr MM.Value)
    (lines : List Line) (a : SNode) (rest : List SNode)
    (hb : a.constBytesVal = none) (hwf : wfSpan lines a) :
    (get_first_marshal_bytes ev lines (a :: rest)).1
      = (ev (specSpanText lines a.lineno a.col_offset a.end_lineno
          a.end_col_offset.toNat)).map some := by
  obtain ⟨h1, h12, h2len, he0, hsl⟩ := hwf
  have hlen1 : a.lineno - 1 < lines.length := by omega
  have hslice := lineRange_eq_slice lines a.lineno a.end_lineno h1
  by_cases heq : a.lineno = a.end_lineno
  · have hc12 : a.col_offset ≤ a.end_col_offset.toNat := hsl heq
    have hr : lineRange lines a.lineno a.end_lineno = [lines[a.lineno - 1]] := by
      rw [hslice, show a.end_lineno + 1 - a.lineno = 1 by omega,
          List.drop_eq_getElem_cons hlen1, List.take_succ_cons, List.take_zero]
    simp only [get_first_marshal_bytes, hb, hr, if_pos heq]
    rw [specSpanText, if_pos heq]
    rw [show nthLine lines a.lineno = lines[a.lineno - 1] from
      List.getD_eq_getElem lines [] hlen1]
    rw [show modifyLastL
          (fun l => pyTakeInt l (a.end_col_offset - (a.col_offset : Int)))
          [List.drop a.col_offset lines[a.lineno - 1]]
        = [pyTakeInt (List.drop a.col_offset lines[a.lineno - 1])
            (a.end_col_offset - (a.col_offset : Int))] from rfl]
    rw [show joinNL [pyTakeInt (List.drop a.col_offset lines[a.lineno - 1])
            (a.end_col_offset - (a.col_offset : Int))]
        = pyTakeInt (List.drop a.col_offset lines[a.lineno - 1])
            (a.end_col_offset - (a.col_offset : Int)) from rfl]
    rw [pyTakeInt, if_pos (by omega)]
    rw [take_drop_comm]
    rw [show (a.end_col_offset - (a.col_offset : Int)).toNat
        = a.end_col_offset.toNat - a.col_offset by omega]
  · have hlt : a.lineno < a.end_lineno := by omega
    have hlen2 : a.end_lineno - 1 < lines.length := by omega
    have hr : lineRange lines a.lineno a.end_lineno
        = lines[a.lineno - 1] ::
          ((lines.drop a.lineno).take (a.end_lineno - 1 - a.lineno)
            ++ [lines[a.end_lineno - 1]]) := by
      rw [hslice, List.drop_eq_getElem_cons hlen1,
          show a.end_lineno + 1 - a.lineno = (a.end_lineno - a.lineno) + 1 by omega,
          List.take_succ_cons]
      congr 1
      rw [show (a.lineno - 1) + 1 = a.lineno by omega]
      rw [show a.end_lineno - a.lineno = (a.end_lineno - 1 - a.lineno) + 1 by omega]
      rw [List.take_succ]
      congr 1
      rw [List.getElem?_drop,
          show a.lineno + (a.end_lineno - 1 - a.lineno) = a.end_lineno - 1 by omega,
          List.getElem?_eq_getElem hlen2]
      rfl
    simp only [get_first_marshal_bytes, hb, hr, if_neg heq]
    rw [specSpanText, if_neg heq]
    rw [show nthLine lines a.lineno = lines[a.lineno - 1] from
      List.getD_eq_getElem lines [] hlen1]
    rw [show nthLine lines a.end_lineno = lines[a.end_lineno - 1] from
      List.getD_eq_getElem lines [] hlen2]
    rw [show (List.drop a.col_offset lines[a.lineno - 1]) ::
          ((lines.drop a.lineno).take (a.end_lineno - 1 - a.lineno)
            ++ [lines[a.end_lineno - 1]])
        = ((List.drop a.col_offset lines[a.lineno - 1]) ::
            (lines.drop a.lineno).take (a.end_lineno - 1 - a.lineno))
          ++ [lines[a.end_lineno - 1]] from rfl]
    rw [modifyLastL_append]
    rw [pyTakeInt, if_pos he0]
    rfl

/-- C8 witness: for a concrete argument spanning lines 10-12 of a 12-line
source, the sliced text is exactly the recorded span and its evaluation is the
denoted byte concatenation. -/
theorem c8_witness :
    argC8.constBytesVal = none ∧ wfSpan linesC8 argC8 ∧
    (get_first_marshal_bytes evC8 linesC8 [argC8]).1
      = .ok (some (.bytesV [97, 97, 98, 98, 99, 99])) :=
  ⟨rfl, by unfold wfSpan; decide,
   by rw [c8_span_slicing_exact evC8 linesC8 argC8 [] rfl (by unfold wfSpan; decide)]; rfl⟩

end SafeA

namespace MM

theorem all_congr_mem {α : Type} (l : List α) (f g : α → Bool)
    (h : ∀ x ∈ l, f x = g x) : l.all f = l.all g := by
  induction l with
  | nil => rfl
  | cons a as ih =>
      simp only [List.all_cons]
      rw [h a (List.mem_cons_self _ _), ih (fun x hx => h x (List.mem_cons_of_mem _ hx))]

theorem agreeOn_insertA (S : List String) (ns1 ns2 : Env) (k : String) (v : Value)
    (ha : agreeOn S ns1 ns2) : agreeOn S (insertA ns1 k v) (insertA ns2 k v) := by
  intro x hx
  by_cases hxk : x = k
  · subst hxk
    rw [lookupA_insertA_self, lookupA_insertA_self]
  · rw [lookupA_insertA_ne _ _ _ _ hxk, lookupA_insertA_ne _ _ _ _ hxk]
    exact ha x hx

theorem stmtDeps_sub_nsNames (b : Stmt) : ∀ d ∈ stmtDeps b, d ∈ stmtNsNames b := by
  cases b <;> simp [stmtDeps, stmtNsNames]
  · intro d hd
    exact Or.inr hd
  · intro d hd
    exact Or.inr hd

theorem execDef_congr (ns1 ns2 : Env) (sid : Nat) (b : Stmt)
    (hdeps : ∀ d ∈ stmtDeps b, lookupA ns1 d = lookupA ns2 d) :
    execDef ns1 sid b = execDef ns2 sid b := by
  cases b with
  | funcDef n decs =>
      have : decs.all (resolvesName ns1) = decs.all (resolvesName ns2) :=
        all_congr_mem decs _ _ (fun d hd => by
          rw [resolvesName, resolvesName, hdeps d (by simpa [stmtDeps] using hd)])
      simp only [execDef, this]
  | classDef n bases =>
      have : bases.all (resolvesName ns1) = bases.all (resolvesName ns2) :=
        all_congr_mem bases _ _ (fun d hd => by
          rw [resolvesName, resolvesName, hdeps d (by simpa [stmtDeps] using hd)])
      simp only [execDef, this]
  | assign t v => rfl
  | assignOther => rfl
  | importStmt names => rfl
  | importFrom m names => rfl
  | exprStmt e => rfl
  | other => rfl

theorem execDef_name_mem (ns : Env) (sid : Nat) (b : Stmt) (p : String × Value)
    (hp : execDef ns sid b = some p) : p.1 ∈ stmtNsNames b := by
  cases b with
  | funcDef n decs =>
      by_cases hd : decs.all (resolvesName ns) = true
      · rw [execDef, if_pos hd] at hp
        cases hp
        simp [stmtNsNames]
      · rw [execDef, if_neg hd] at hp
        cases hp
  | classDef n bases =>
      by_cases hd : bases.all (resolvesName ns) = true
      · rw [execDef, if_pos hd] at hp
        cases hp
        simp [stmtNsNames]
      · rw [execDef, if_neg hd] at hp
        cases hp
  | assign t v => cases hp
  | assignOther => cases hp
  | importStmt names => cases hp
  | importFrom m names => cases hp
  | exprStmt e => cases hp
  | other => cases hp

theorem materializeLoop_congr (S : List String) (sid : Nat)
    (defs : List (String × Stmt)) (ns1 ns2 : Env)
    (ha : agreeOn S ns1 ns2) (hdefs : defsOK S defs) :
    (materializeLoop ns1 sid defs).2 = (materializeLoop ns2 sid defs).2 ∧
    agreeOn S (materializeLoop ns1 sid defs).1 (materializeLoop ns2 sid defs).1 := by
  induction defs generalizing ns1 ns2 with
  | nil => exact ⟨rfl, ha⟩
  | cons e rest ih =>
      rcases e with ⟨k, b⟩
      have hhead := hdefs (k, b) (List.mem_cons_self _ _)
      have hrest : defsOK S rest := fun q hq => hdefs q (List.mem_cons_of_mem _ hq)
      have hde : execDef ns1 sid b = execDef ns2 sid b :=
        execDef_congr ns1 ns2 sid b (fun d hd =>
          ha d (hhead.2 d (stmtDeps_sub_nsNames b d hd)))
      rcases hed : execDef ns2 sid b with _ | p
      · have h1 := ih ns1 ns2 ha hrest
        constructor
        · simp only [materializeLoop, hde, hed]
          rw [h1.1]
        · simp only [materializeLoop, hde, hed]
          exact h1.2
      · have h1 := ih (insertA ns1 p.1 p.2) (insertA ns2 p.1 p.2)
          (agreeOn_insertA S ns1 ns2 p.1 p.2 ha) hrest
        constructor
        · simp only [materializeLoop, hde, hed]
          exact h1.1
        · simp only [materializeLoop, hde, hed]
          exact h1.2

theorem adoptLoop_congr (S : List String) (del : List String)
    (defs : List (String × Stmt)) (nsA nsB : Env) (g : Env)
    (ha : agreeOn S nsA nsB) (hkeys : ∀ q ∈ defs, q.1 ∈ S) :
    adoptLoop nsA del g defs = adoptLoop nsB del g defs := by
  induction defs generalizing g with
  | nil => rfl
  | cons e rest ih =>
      rcases e with ⟨k, b⟩
      have hk : k ∈ S := hkeys (k, b) (List.mem_cons_self _ _)
      have hrest : ∀ q ∈ rest, q.1 ∈ S := fun q hq => hkeys q (List.mem_cons_of_mem _ hq)
      by_cases hc : k ∈ del
      · rw [adoptLoop, adoptLoop, if_pos hc, if_pos hc]
        exact ih g hrest
      · rw [adoptLoop, adoptLoop, if_neg hc, if_neg hc, ha k hk]
        exact ih _ hrest

theorem globals_prop_parts (ns : Env) (s : Session) :
    (globals_prop ns s).2.1.defs = s.defs ∧ (globals_prop ns s).2.1.tree = s.tree ∧
    (globals_prop ns s).2.1.sid = s.sid := by
  rw [globals_prop]
  split
  · exact ⟨rfl, rfl, rfl⟩
  · exact ⟨rfl, rfl, rfl⟩

theorem globals_prop_congr (S : List String) (ns1 ns2 : Env) (s : Session)
    (ha : agreeOn S ns1 ns2) (hdefs : defsOK S s.defs) :
    agreeOn S (globals_prop ns1 s).1 (globals_prop ns2 s).1 ∧
    (globals_prop ns1 s).2.1 = (globals_prop ns2 s).2.1 ∧
    (globals_prop ns1 s).2.2 = (globals_prop ns2 s).2.2 := by
  by_cases hmemo : (s.computed && !s.gvars.isEmpty) = true
  · rw [globals_prop, globals_prop, if_pos hmemo, if_pos hmemo]
    exact ⟨ha, rfl, rfl⟩
  · have hmat := materializeLoop_congr S s.sid s.defs ns1 ns2 ha hdefs
    have hadopt : adoptLoop (materializeLoop ns1 s.sid s.defs).1
          (materializeLoop ns1 s.sid s.defs).2 s.gvars s.defs
        = adoptLoop (materializeLoop ns2 s.sid s.defs).1
          (materializeLoop ns2 s.sid s.defs).2 s.gvars s.defs := by
      rw [hmat.1]
      exact adoptLoop_congr S _ s.defs _ _ s.gvars hmat.2
        (fun q hq => (hdefs q hq).1)
    refine ⟨?_, ?_, ?_⟩
    · simp only [globals_prop, if_neg hmemo]
      exact hmat.2
    · simp only [globals_prop, if_neg hmemo]
      rw [hadopt]
    · simp only [globals_prop, if_neg hmemo]
      rw [hadopt]

end MM

namespace MM

theorem isMarshalRecv_congr (ns1 ns2 g : Env)
    (hm : lookupA ns1 "marshal" = lookupA ns2 "marshal") (recv : String) :
    isMarshalRecv ns1 g recv = isMarshalRecv ns2 g recv := by
  rw [isMarshalRecv, isMarshalRecv, hm]

theorem loadsSiteHead_congr (ns1 ns2 g : Env)
    (hm : lookupA ns1 "marshal" = lookupA ns2 "marshal") (c : Expr) :
    loadsSiteHead ns1 g c = loadsSiteHead ns2 g c := by
  cases c with
  | constI n => rfl
  | constS s => rfl
  | constB bs => rfl
  | name x => rfl
  | lam => rfl
  | attr r a0 => rfl
  | call f args =>
      cases f with
      | constI n => rfl
      | constS s => rfl
      | constB bs => rfl
      | name x => rfl
      | lam => rfl
      | call f' args' => rfl
      | attr r a0 =>
          cases r with
          | constI n => rfl
          | constS s => rfl
          | constB bs => rfl
          | lam => rfl
          | call f' args' => rfl
          | attr r' a1 => rfl
          | name recv =>
              simp only [loadsSiteHead, isMarshalRecv_congr ns1 ns2 g hm recv]

theorem get_bytecodes_loop_congr (ns1 ns2 g : Env)
    (hm : lookupA ns1 "marshal" = lookupA ns2 "marshal") (cs : List Expr) :
    get_bytecodes_loop ns1 g cs = get_bytecodes_loop ns2 g cs := by
  rw [get_bytecodes_loop_eq_filterMap, get_bytecodes_loop_eq_filterMap]
  exact List.filterMap_congr (fun c _ => loadsSiteHead_congr ns1 ns2 g hm c)

theorem visit_Assign_defs (vs : VisState) (t : String) (v : Expr) :
    (visit_Assign vs t v).defs = vs.defs := by
  unfold visit_Assign
  split
  all_goals first | rfl | (split <;> rfl)

theorem visit_Import_defs (h : Host) (vs : VisState)
    (names : List (String × Option String)) :
    (visit_Import h vs names).1.defs = vs.defs := by
  induction names generalizing vs with
  | nil => rfl
  | cons p rest ih =>
      rcases p with ⟨m, a⟩
      rcases him : h.importMod m with v | _ | e
      · simpa [visit_Import, him] using ih _
      · simpa [visit_Import, him] using ih _
      · simp [visit_Import, him]

theorem visit_ImportFrom_defs (h : Host) (vs : VisState) (m : String)
    (names : List (String × Option String)) :
    (visit_ImportFrom h vs m names).1.defs = vs.defs := by
  unfold visit_ImportFrom
  split <;> rfl

theorem visitStmt_defsOK (S : List String) (h : Host) (vs : VisState) (st : Stmt)
    (hvs : defsOK S vs.defs) (hst : ∀ x ∈ stmtNsNames st, x ∈ S) :
    defsOK S (visitStmt h vs st).1.defs := by
  cases st with
  | assign t v =>
      intro q hq
      rw [show (visitStmt h vs (.assign t v)).1 = visit_Assign vs t v from rfl,
          visit_Assign_defs] at hq
      exact hvs q hq
  | assignOther => exact hvs
  | funcDef n decs =>
      intro q hq
      rcases mem_insertA vs.defs n (.funcDef n decs) q hq with he | hm
      · subst he
        exact ⟨hst n (by simp [stmtNsNames]), fun x hx => hst x hx⟩
      · exact hvs q hm
  | classDef n bases =>
      intro q hq
      rcases mem_insertA vs.defs n (.classDef n bases) q hq with he | hm
      · subst he
        exact ⟨hst n (by simp [stmtNsNames]), fun x hx => hst x hx⟩
      · exact hvs q hm
  | importStmt names =>
      intro q hq
      rw [show (visitStmt h vs (.importStmt names)).1 = (visit_Import h vs names).1
          from rfl, visit_Import_defs] at hq
      exact hvs q hq
  | importFrom m names =>
      intro q hq
      rw [show (visitStmt h vs (.importFrom m names)).1
          = (visit_ImportFrom h vs m names).1 from rfl, visit_ImportFrom_defs] at hq
      exact hvs q hq
  | exprStmt e => exact hvs
  | other => exact hvs

theorem visitBody_defsOK (S : List String) (h : Host) (tree : List Stmt)
    (vs : VisState) (hvs : defsOK S vs.defs)
    (htree : ∀ st ∈ tree, ∀ x ∈ stmtNsNames st, x ∈ S) :
    defsOK S (visitBody h vs tree).1.defs := by
  induction tree generalizing vs with
  | nil => exact hvs
  | cons st rest ih =>
      have hst := htree st (List.mem_cons_self _ _)
      have hrest : ∀ st' ∈ rest, ∀ x ∈ stmtNsNames st', x ∈ S :=
        fun st' hs => htree st' (List.mem_cons_of_mem _ hs)
      have hnext := visitStmt_defsOK S h vs st hvs hst
      rcases hm : visitStmt h vs st with ⟨vs', r⟩
      rw [hm] at hnext
      cases r with
      | ok u =>
          rw [show visitBody h vs (st :: rest)
              = visitBody h vs' rest by rw [visitBody, hm]]
          exact ih vs' hnext hrest
      | error e =>
          rw [show visitBody h vs (st :: rest) = (vs', .error e) by rw [visitBody, hm]]
          exact hnext

end MM

namespace MM

theorem get_bytecodes_parts (ns : Env) (s : Session) :
    (get_bytecodes ns s).2.2.defs = s.defs ∧ (get_bytecodes ns s).2.2.tree = s.tree ∧
    (get_bytecodes ns s).2.2.sid = s.sid := by
  simp only [get_bytecodes]
  exact globals_prop_parts ns s

theorem get_bytecodes_congr (S : List String) (ns1 ns2 : Env) (s : Session)
    (ha : agreeOn S ns1 ns2) (hdefs : defsOK S s.defs) (hm : "marshal" ∈ S) :
    (get_bytecodes ns1 s).1 = (get_bytecodes ns2 s).1 ∧
    agreeOn S (get_bytecodes ns1 s).2.1 (get_bytecodes ns2 s).2.1 ∧
    (get_bytecodes ns1 s).2.2 = (get_bytecodes ns2 s).2.2 := by
  have hg := globals_prop_congr S ns1 ns2 s ha hdefs
  refine ⟨?_, ?_, ?_⟩
  · simp only [get_bytecodes]
    rw [hg.2.1, hg.2.2]
    exact get_bytecodes_loop_congr _ _ _ (hg.1 "marshal" hm) _
  · simp only [get_bytecodes]
    exact hg.1
  · simp only [get_bytecodes]
    exact hg.2.1

theorem try_to_get_congr (S : List String) (ns1 ns2 : Env) (s : Session) (id0 : String)
    (ha : agreeOn S ns1 ns2) (hdefs : defsOK S s.defs) :
    (try_to_get_exec_restults ns1 s id0).1 = (try_to_get_exec_restults ns2 s id0).1 ∧
    agreeOn S (try_to_get_exec_restults ns1 s id0).2.1
      (try_to_get_exec_restults ns2 s id0).2.1 ∧
    (try_to_get_exec_restults ns1 s id0).2.2
      = (try_to_get_exec_restults ns2 s id0).2.2 := by
  have hg := globals_prop_congr S ns1 ns2 s ha hdefs
  refine ⟨?_, ?_, ?_⟩
  · simp only [try_to_get_exec_restults]
    rw [hg.2.1, hg.2.2]
  · simp only [try_to_get_exec_restults]
    exact hg.1
  · simp only [try_to_get_exec_restults]
    rw [hg.2.1, hg.2.2]

/-- C9 amended: materialization executes deferred definitions in the analyzer
module's own global namespace, which is shared by every analysis session in the
process and which get_bytecodes reads to resolve the deserialization module's
identity; sessions are therefore independent only up to that namespace — two
runs of the same pipeline over module namespaces that agree on `marshal` and on
every name the program's definitions can read or write there produce identical
result collections (the tree, symbol table, and merged environment themselves
are per-session). -/
theorem c9_shared_namespace_agreement (h : Host) (ns1 ns2 : Env) (sys : Sys)
    (sid : Nat) (tree : List Stmt)
    (ha : agreeOn (progNsNames tree) ns1 ns2) :
    (runPipeline h ns1 sys sid tree).1 = (runPipeline h ns2 sys sid tree).1 := by
  have hm : "marshal" ∈ progNsNames tree := List.mem_cons_self _ _
  rcases hb : visitBody h { gvars := [], defs := [] } tree with ⟨vs, r⟩
  have hdefs0 : defsOK (progNsNames tree) vs.defs := by
    have hinv := visitBody_defsOK (progNsNames tree) h tree { gvars := [], defs := [] }
      (fun q hq => absurd hq (List.not_mem_nil q))
      (fun st hst x hx => List.mem_cons_of_mem _ (List.mem_flatMap.mpr ⟨st, hst, hx⟩))
    rwa [hb] at hinv
  cases r with
  | error e => simp only [runPipeline, gvVisit, hb]
  | ok u =>
      simp only [runPipeline, gvVisit, hb]
      set S := progNsNames tree with hS
      set s0 : Session := { tree := tree, gvars := vs.gvars, defs := vs.defs, computed := false, sid := sid } with hs0
      have hg0 := globals_prop_congr S ns1 ns2 s0 ha hdefs0
      rw [hg0.2.1]
      set s1 := (globals_prop ns2 s0).2.1 with hs1
      have hdefs1 : defsOK S s1.defs := by
        rw [hs1, (globals_prop_parts ns2 s0).1]
        exact hdefs0
      have hgb := get_bytecodes_congr S (globals_prop ns1 s0).1 (globals_prop ns2 s0).1
        s1 hg0.1 hdefs1 hm
      rw [hgb.1, hgb.2.2]
      set s2 := (get_bytecodes (globals_prop ns2 s0).1 s1).2.2 with hs2
      have hdefs2 : defsOK S s2.defs := by
        rw [hs2, (get_bytecodes_parts _ _).1, hs1, (globals_prop_parts ns2 s0).1]
        exact hdefs0
      have htr := try_to_get_congr S
        (get_bytecodes (globals_prop ns1 s0).1 s1).2.1
        (get_bytecodes (globals_prop ns2 s0).1 s1).2.1
        s2 "exec" hgb.2.1 hdefs2
      rw [htr.1, htr.2.2]

end MM

namespace MM

/-- C9 witness: two concrete namespaces differing in an unrelated leftover
binding but agreeing on the relevant names give identical pipeline results for
a concrete program. -/
theorem c9_witness :
    agreeOn (progNsNames progB9) ns0
      [("marshal", Value.moduleHandle "marshal"), ("leftover", Value.intV 3)] ∧
    (runPipeline hostM ns0 sys0 1 progB9).1
      = (runPipeline hostM
          [("marshal", Value.moduleHandle "marshal"), ("leftover", Value.intV 3)]
          sys0 1 progB9).1 := by
  have hagree : agreeOn (progNsNames progB9) ns0
      [("marshal", Value.moduleHandle "marshal"), ("leftover", Value.intV 3)] := by
    intro x hx
    have hx' : x = "marshal" := by
      rw [show progNsNames progB9 = ["marshal"] from rfl] at hx
      exact List.mem_singleton.mp hx
    subst hx'
    rfl
  exact ⟨hagree,
    c9_shared_namespace_agreement hostM ns0 _ sys0 1 progB9 hagree⟩

end MM

namespace MM

/-- C4 witness: applying the stdin-restoration characterization at a concrete
host, program and sys state. -/
theorem c4_witness :
    (gvVisit hostM sys0 { gvars := [], defs := [] } progW1).1.stdin
      = cond (isOkE (gvVisit hostM sys0 { gvars := [], defs := [] } progW1).2.2)
          sys0.stdin none :=
  c4_stdin_restored_only_on_success hostM sys0 { gvars := [], defs := [] } progW1

end MM

namespace SafeA

/-- C10 witness: applying the first-payload-only characterization at a concrete
eval oracle, source and collected list. -/
theorem c10_witness :
    (get_first_marshal_bytes evC7 [lineC7] (argC7 :: [argC7])).1
      = (get_first_marshal_bytes evC7 [lineC7] [argC7]).1 ∧
    ∃ a', (get_first_marshal_bytes evC7 [lineC7] (argC7 :: [argC7])).2
      = a' :: [argC7] :=
  c10_first_payload_only.2 evC7 [lineC7] argC7 [argC7]

end SafeA
